import Mathlib

set_option maxRecDepth 8000

/-!
Verification of the folded SHA-256 step function (`src/utils.rs`,
`src/circuit.rs`, `src/main.rs`).

Machine `u32` values are modelled as `Nat` with explicit `% 2 ^ 32`
where the source wraps.  Bytes are `Nat` (in range `< 256` where the
theorems need it).  The arkworks `UInt32<F>` / `UInt8<F>` gadgets of the
constrained path are modelled as little-endian `List Bool` bit vectors
(bit 0 = least significant), which is exactly the representation the
gadget library uses; their primitive operations (xor, and, not, rotate,
shift, wrapping addition, big-endian byte recomposition) are modelled by
the value semantics the specification assigns to them (rotations/shifts
are wire relabelings, wrapping addition is field addition followed by
decomposition into 32 bits discarding higher carries).
-/

/-- One wrapping 32-bit addition, the model of `u32::wrapping_add`. -/
def wadd (x y : Nat) : Nat := (x + y) % 2 ^ 32

/-- Model of the Rust intrinsic `u32::rotate_right`: the low `n` bits are
moved to the top, the rest shifted down. -/
def rotr32 (x n : Nat) : Nat := 2 ^ (32 - n) * (x % 2 ^ n) + x / 2 ^ n

/-- Model of the Rust intrinsic `!x` on `u32` (bitwise complement). -/
def u32not (x : Nat) : Nat := (2 ^ 32 - 1) ^^^ x

/-- The 64 SHA-256 round constants `K` of `src/utils.rs`. -/
def K : List Nat := [
  1116352408, 1899447441, 3049323471, 3921009573, 961987163, 1508970993,
  2453635748, 2870763221, 3624381080, 310598401, 607225278, 1426881987,
  1925078388, 2162078206, 2614888103, 3248222580, 3835390401, 4022224774,
  264347078, 604807628, 770255983, 1249150122, 1555081692, 1996064986,
  2554220882, 2821834349, 2952996808, 3210313671, 3336571891, 3584528711,
  113926993, 338241895, 666307205, 773529912, 1294757372, 1396182291,
  1695183700, 1986661051, 2177026350, 2456956037, 2730485921, 2820302411,
  3259730800, 3345764771, 3516065817, 3600352804, 4094571909, 275423344,
  430227734, 506948616, 659060556, 883997877, 958139571, 1322822218,
  1537002063, 1747873779, 1955562222, 2024104815, 2227730452, 2361852424,
  2428436474, 2756734187, 3204031479, 3329325298]

/-- The 8 SHA-256 initialization constants `H` of `src/main.rs`. -/
def H : List Nat := [
  1779033703, 3144134277, 1013904242, 2773480762, 1359893119, 2600822924, 528734635, 1541459225]

/-- Fuel-indexed model of Rust's `slice::chunks(4)`; the fuel is always
instantiated with the list length, which bounds the number of chunks. -/
def chunksGo : Nat → List α → List (List α)
  | 0, _ => []
  | _, [] => []
  | fuel + 1, l => l.take 4 :: chunksGo fuel (l.drop 4)

/-- Model of `data.chunks(4)` from `src/utils.rs`. -/
def chunks4 (l : List α) : List (List α) := chunksGo l.length l

/-- Model of `u32::from_be_bytes(chunk.try_into()?)`: succeeds exactly on
4-byte chunks, recomposing them big-endian. -/
def u32FromBEBytes : List Nat → Option Nat
  | [b0, b1, b2, b3] => some (((b0 * 256 + b1) * 256 + b2) * 256 + b3)
  | _ => none

/-- The schedule helper `s0` of the `16..64` loop in `update_state_ref`. -/
def schedS0 (x : Nat) : Nat := rotr32 x 7 ^^^ rotr32 x 18 ^^^ (x >>> 3)

/-- The schedule helper `s1` of the `16..64` loop in `update_state_ref`. -/
def schedS1 (x : Nat) : Nat := rotr32 x 17 ^^^ rotr32 x 19 ^^^ (x >>> 10)

/-- The `for i in 16..64` message-schedule extension loop of
`update_state_ref`, run `n` times (the source runs it 48 times);
iteration `n` overwrites entry `16 + n`. -/
def schedExtend (w : List Nat) : Nat → List Nat
  | 0 => w
  | n + 1 =>
      let w' := schedExtend w n
      w'.set (16 + n)
        (wadd (wadd (wadd (w'.getD (16 + n - 16) 0) (schedS0 (w'.getD (16 + n - 15) 0)))
          (w'.getD (16 + n - 7) 0)) (schedS1 (w'.getD (16 + n - 2) 0)))

/-- One iteration of the `for i in 0..64` register-update loop of
`update_state_ref`: all reads refer to the registers before this
iteration's assignments, exactly as in the source's assignment order. -/
def roundStep (ki wi : Nat) (h : List Nat) : List Nat :=
  let ch := (h.getD 4 0 &&& h.getD 5 0) ^^^ (u32not (h.getD 4 0) &&& h.getD 6 0)
  let ma := (h.getD 0 0 &&& h.getD 1 0) ^^^ (h.getD 0 0 &&& h.getD 2 0) ^^^
    (h.getD 1 0 &&& h.getD 2 0)
  let s0 := rotr32 (h.getD 0 0) 2 ^^^ rotr32 (h.getD 0 0) 13 ^^^ rotr32 (h.getD 0 0) 22
  let s1 := rotr32 (h.getD 4 0) 6 ^^^ rotr32 (h.getD 4 0) 11 ^^^ rotr32 (h.getD 4 0) 25
  let t0 := wadd (wadd (wadd (wadd (h.getD 7 0) s1) ch) ki) wi
  let t1 := wadd s0 ma
  [wadd t0 t1, h.getD 0 0, h.getD 1 0, h.getD 2 0, wadd (h.getD 3 0) t0,
    h.getD 4 0, h.getD 5 0, h.getD 6 0]

/-- The full 64-round register loop of `update_state_ref`. -/
def compressRounds (w h : List Nat) : List Nat :=
  (List.range 64).foldl (fun h i => roundStep (K.getD i 0) (w.getD i 0) h) h

/-- Model of `update_state_ref` from `src/utils.rs`: build the first
schedule words from 4-byte big-endian chunks (the `zip` with the 64-entry
zero-initialised array keeps at most 64 chunks and leaves the remaining
entries zero), extend the schedule 48 times, then run the 64 rounds
starting from a copy of `state`.  The returned vector is the final
working registers; the function performs no feed-forward addition of the
input state.  The `Err` case mirrors the `"Invalid chunk length"` branch. -/
def update_state_ref (state data : List Nat) : Except String (List Nat) :=
  match ((chunks4 data).take 64).mapM u32FromBEBytes with
  | none => Except.error "Invalid chunk length"
  | some ws =>
      Except.ok (compressRounds (schedExtend (ws ++ List.replicate (64 - ws.length) 0) 48) state)

/-- The `while (padded_input.len() + 8) % 64 != 0 { push(0) }` loop of
`add_sha256_padding`. -/
def padZeros (l : List Nat) : List Nat :=
  if (l.length + 8) % 64 = 0 then l else padZeros (l ++ [0])
termination_by (64 - (l.length + 8) % 64) % 64
decreasing_by simp only [List.length_append, List.length_cons, List.length_nil]; omega

/-- Model of `u64::to_be_bytes` applied to the `as u64` cast of the bit
length in `add_sha256_padding`. -/
def u64_to_be_bytes (x : Nat) : List Nat :=
  (List.range 8).map fun i => x % 2 ^ 64 / 256 ^ (7 - i) % 256

/-- Model of `add_sha256_padding` from `src/utils.rs`. -/
def add_sha256_padding (input : List Nat) : List Nat :=
  padZeros (input ++ [128]) ++ u64_to_be_bytes (8 * input.length)

/-- The drain loop of `padded_input_to_blocks`: for `i` from `n - 1` down
to `0`, remove the suffix starting at byte `i * 64` from the working
buffer and push it onto the accumulator. -/
def drainBlocks : Nat → List Nat → List (List Nat) → List Nat × List (List Nat)
  | 0, cur, acc => (cur, acc)
  | i + 1, cur, acc => drainBlocks i (cur.take (i * 64)) (acc ++ [cur.drop (i * 64)])

/-- Model of `padded_input_to_blocks` from `src/utils.rs`: drain 64-byte
chunks from the end of the buffer, then reverse the collected list to
restore original order. -/
def padded_input_to_blocks (input : List Nat) : List (List Nat) :=
  ((drainBlocks (input.length / 64) input []).2).reverse

/-- Model of `sha256_msg_block_sequence` from `src/utils.rs`. -/
def sha256_msg_block_sequence (input : List Nat) : List (List Nat) :=
  padded_input_to_blocks (add_sha256_padding input)

/-- Model of `BigInteger::to_bytes_le` on the canonical representative of
a field element (`n` limbs of bytes; BN254's `Fr` yields 32 bytes). -/
def to_bytes_le (n x : Nat) : List Nat := (List.range n).map fun i => x / 256 ^ i % 256

/-- Model of `u32::from_le_bytes`. -/
def from_le_bytes (bs : List Nat) : Nat := bs.foldr (fun b acc => b + 256 * acc) 0

/-- Model of `bigint_to_u32` from `src/main.rs`: copy the first
`min(len, 4)` little-endian bytes of the canonical representative into a
4-byte array and read it back little-endian. -/
def bigint_to_u32 (x : Nat) : Nat := from_le_bytes ((to_bytes_le 32 x).take 4)

/-- Model of the per-byte conversion `x.into_bigint().to_bytes_le()[0]`
used on external inputs in `step_native`. -/
def field_to_msg_byte (x : Nat) : Nat := (to_bytes_le 32 x).getD 0 0

/-- Model of `FoldedSha256FCircuit::step_native` from `src/main.rs`
(field elements are carried as their canonical `Nat` representatives;
the final `F::from` re-embedding is the identity on `u32` values). -/
def step_native (z ext : List Nat) : Except String (List Nat) :=
  update_state_ref (z.map bigint_to_u32) (ext.map field_to_msg_byte)

/-- Little-endian value of a gadget bit vector (`Boolean` wires, bit 0 =
least significant), the decoding of an arkworks `UInt32`/`UInt8`. -/
def bvVal : List Bool → Nat
  | [] => 0
  | b :: bs => (if b then 1 else 0) + 2 * bvVal bs

/-- Little-endian `w`-bit decomposition of a natural number, the model of
allocating a `w`-bit gadget for a value. -/
def natToBv : Nat → Nat → List Bool
  | 0, _ => []
  | w + 1, x => decide (x % 2 = 1) :: natToBv w (x / 2)

/-- Gadget bitwise xor (pointwise on wires). -/
def bvXor (a b : List Bool) : List Bool := List.zipWith xor a b

/-- Gadget bitwise and (pointwise on wires). -/
def bvAnd (a b : List Bool) : List Bool := List.zipWith and a b

/-- Gadget bitwise not (pointwise on wires). -/
def bvNot (a : List Bool) : List Bool := a.map not

/-- Gadget `rotate_right`: pure wire relabeling; result bit `j` is source
bit `(j + k) % width`. -/
def bvRotr (k : Nat) (a : List Bool) : List Bool :=
  (List.range a.length).map fun j => a.getD ((j + k) % a.length) false

/-- Gadget logical shift right by `k`: result bit `j` is source bit
`j + k`, zero-filled at the top. -/
def bvShr (k : Nat) (a : List Bool) : List Bool :=
  (List.range a.length).map fun j => a.getD (j + k) false

/-- Gadget `wrapping_add`: field addition of the two values followed by
decomposition back into 32 bits, discarding carries beyond bit 31. -/
def bvAdd (a b : List Bool) : List Bool := natToBv 32 ((bvVal a + bvVal b) % 2 ^ 32)

/-- Gadget `wrapping_add_many`: field addition of all summands followed
by decomposition back into 32 bits, discarding carries beyond bit 31. -/
def bvAddMany (xs : List (List Bool)) : List Bool := natToBv 32 ((xs.map bvVal).sum % 2 ^ 32)

/-- Gadget `UInt32::from_bytes_be` on a chunk of byte gadgets: the last
byte supplies the least-significant bits. -/
def bvFromBytesBE (chunk : List (List Bool)) : List Bool := chunk.reverse.flatten

/-- The schedule helper `s0` of the `16..64` loop in
`one_compression_round` (`src/circuit.rs`). -/
def bschedS0 (x : List Bool) : List Bool := bvXor (bvXor (bvRotr 7 x) (bvRotr 18 x)) (bvShr 3 x)

/-- The schedule helper `s1` of the `16..64` loop in
`one_compression_round` (`src/circuit.rs`). -/
def bschedS1 (x : List Bool) : List Bool := bvXor (bvXor (bvRotr 17 x) (bvRotr 19 x)) (bvShr 10 x)

/-- The `for i in 16..64` schedule-extension loop of
`one_compression_round`, run `n` times; iteration `n` overwrites entry
`16 + n` via `wrapping_add_many`. -/
def bschedExtend (w : List (List Bool)) : Nat → List (List Bool)
  | 0 => w
  | n + 1 =>
      let w' := bschedExtend w n
      w'.set (16 + n)
        (bvAddMany [w'.getD (16 + n - 16) [], bschedS0 (w'.getD (16 + n - 15) []),
          w'.getD (16 + n - 7) [], bschedS1 (w'.getD (16 + n - 2) [])])

/-- One iteration of the `for i in 0..64` register-update loop of
`one_compression_round`. -/
def broundStep (ki : Nat) (wi : List Bool) (h : List (List Bool)) : List (List Bool) :=
  let ch := bvXor (bvAnd (h.getD 4 []) (h.getD 5 [])) (bvAnd (bvNot (h.getD 4 [])) (h.getD 6 []))
  let ma := bvXor (bvXor (bvAnd (h.getD 0 []) (h.getD 1 [])) (bvAnd (h.getD 0 []) (h.getD 2 [])))
    (bvAnd (h.getD 1 []) (h.getD 2 []))
  let s0 := bvXor (bvXor (bvRotr 2 (h.getD 0 [])) (bvRotr 13 (h.getD 0 [])))
    (bvRotr 22 (h.getD 0 []))
  let s1 := bvXor (bvXor (bvRotr 6 (h.getD 4 [])) (bvRotr 11 (h.getD 4 [])))
    (bvRotr 25 (h.getD 4 []))
  let t0 := bvAddMany [h.getD 7 [], s1, ch, natToBv 32 ki, wi]
  let t1 := bvAdd s0 ma
  [bvAdd t0 t1, h.getD 0 [], h.getD 1 [], h.getD 2 [], bvAdd (h.getD 3 []) t0,
    h.getD 4 [], h.getD 5 [], h.getD 6 []]

/-- The full 64-round register loop of `one_compression_round`. -/
def bcompressRounds (w h : List (List Bool)) : List (List Bool) :=
  (List.range 64).foldl (fun h i => broundStep (K.getD i 0) (w.getD i []) h) h

/-- Model of `one_compression_round` from `src/circuit.rs`.  The first
component of the result is the final value of the mutable `state`
argument (each entry overwritten with its wrapping sum with the matching
final register, the feed-forward); the second component is the returned
vector `h` of final round registers, without the feed-forward. -/
def one_compression_round (state data : List (List Bool)) :
    List (List Bool) × List (List Bool) :=
  let ws := ((chunks4 data).take 64).map bvFromBytesBE
  let w := bschedExtend (ws ++ List.replicate (64 - ws.length) (natToBv 32 0)) 48
  let h := bcompressRounds w state
  (List.zipWith bvAdd state h, h)

/-- Model of `FoldedSha256FCircuit::generate_step_constraints` from
`src/main.rs`: decompose the state field elements into 32-bit gadgets and
the external inputs into 8-bit gadgets, run the constrained round, and
return the field recomposition of its return value (discarding the
mutated state argument). -/
def generate_step_constraints (z ext : List Nat) : List Nat :=
  ((one_compression_round (z.map (natToBv 32)) (ext.map (natToBv 8))).2).map bvVal

/-- Big-endian recomposition of the 4 bytes of `data` starting at byte
`4 * i`: the value of the `i`-th initial schedule word. -/
def beWord (data : List Nat) (i : Nat) : Nat :=
  ((data.getD (4 * i) 0 * 256 + data.getD (4 * i + 1) 0) * 256 + data.getD (4 * i + 2) 0) * 256 +
    data.getD (4 * i + 3) 0

/-- Pointwise correspondence between a list of 32-bit gadget words and a
list of native words: same length, and each gadget word has 32 wires and
decodes to the matching native word. -/
def BvN (lb : List (List Bool)) (ln : List Nat) : Prop :=
  lb.length = ln.length ∧
    ∀ i, i < ln.length → (lb.getD i []).length = 32 ∧ bvVal (lb.getD i []) = ln.getD i 0

/-- Model of the digest serialization used by the repository's
`test_sha256_correctness`: each state word rendered as 4 big-endian
bytes, concatenated in order. -/
def u32_to_be_bytes (x : Nat) : List Nat :=
  [x / 2 ^ 24 % 256, x / 2 ^ 16 % 256, x / 2 ^ 8 % 256, x % 256]

/-- Big-endian, word-by-word serialization of a state. -/
def state_to_be_bytes (ws : List Nat) : List Nat := (ws.map u32_to_be_bytes).flatten

/-- The canonical SHA-256 digest of the 3-byte input `"abc"`. -/
def abc_digest_bytes : List Nat := [
  186, 120, 22, 191, 143, 1, 207, 234, 65, 65, 64,
  222, 93, 174, 34, 35, 176, 3, 97, 163, 150, 23,
  122, 156, 180, 16, 255, 97, 242, 0, 21, 173]

/-- Modelled from the spec: the standard 32-bit right-rotation `rotr`,
written as joining the down-shifted word with the wrapped-around low
bits modulo `2 ^ 32`. -/
def rotrSpec (x n : Nat) : Nat := (x / 2 ^ n + x * 2 ^ (32 - n)) % 2 ^ 32

/-- Modelled from the spec: the message schedule; `W[0..15]` are the
block's words big-endian 4 bytes at a time, and for `i` in `16..64`,
`W[i] = W[i-16] + s0 + W[i-7] + s1` with wrapping 32-bit addition. -/
def Wspec (data : List Nat) : Nat → Nat
  | i =>
    if h : i < 16 then beWord data i
    else
      (Wspec data (i - 16) +
          (rotrSpec (Wspec data (i - 15)) 7 ^^^ rotrSpec (Wspec data (i - 15)) 18 ^^^
            (Wspec data (i - 15) >>> 3)) +
        Wspec data (i - 7) +
          (rotrSpec (Wspec data (i - 2)) 17 ^^^ rotrSpec (Wspec data (i - 2)) 19 ^^^
            (Wspec data (i - 2) >>> 10))) % 2 ^ 32
termination_by i => i
decreasing_by all_goals omega

/-- Modelled from the spec: one round of the register update, with
`ch`, `ma`, `s0`, `s1`, `t0`, `t1` and the register rotation as written
in the standard, all additions wrapping modulo `2 ^ 32`. -/
def roundSpec (ki wi : Nat) (h : List Nat) : List Nat :=
  let ch := (h.getD 4 0 &&& h.getD 5 0) ^^^ (u32not (h.getD 4 0) &&& h.getD 6 0)
  let ma := (h.getD 0 0 &&& h.getD 1 0) ^^^ (h.getD 0 0 &&& h.getD 2 0) ^^^
    (h.getD 1 0 &&& h.getD 2 0)
  let s0 := rotrSpec (h.getD 0 0) 2 ^^^ rotrSpec (h.getD 0 0) 13 ^^^ rotrSpec (h.getD 0 0) 22
  let s1 := rotrSpec (h.getD 4 0) 6 ^^^ rotrSpec (h.getD 4 0) 11 ^^^ rotrSpec (h.getD 4 0) 25
  let t0 := (h.getD 7 0 + s1 + ch + ki + wi) % 2 ^ 32
  let t1 := (s0 + ma) % 2 ^ 32
  [(t0 + t1) % 2 ^ 32, h.getD 0 0, h.getD 1 0, h.getD 2 0, (h.getD 3 0 + t0) % 2 ^ 32,
    h.getD 4 0, h.getD 5 0, h.getD 6 0]

/-- Modelled from the spec: the 64-round register update driven by the
round constants and the schedule of §4.2 of the specification. -/
def compressSpec (state data : List Nat) : List Nat :=
  (List.range 64).foldl (fun h i => roundSpec (K.getD i 0) (Wspec data i) h) state

/-! ### List access helpers -/

theorem getD_mapRange {α : Type _} (n : Nat) (f : Nat → α) (i : Nat) (d : α) :
    ((List.range n).map f).getD i d = if i < n then f i else d := by
  by_cases h : i < n
  · simp [List.getD_eq_getElem?_getD, List.getElem?_map, List.getElem?_range h, h]
  · have hn : (List.range n)[i]? = none := by
      simp only [List.getElem?_eq_none_iff, List.length_range]; omega
    simp [List.getD_eq_getElem?_getD, List.getElem?_map, hn, h]

theorem getD_map {α β : Type _} {f : α → β} {l : List α} {i : Nat} (h : i < l.length)
    (d : β) (d' : α) : (l.map f).getD i d = f (l.getD i d') := by
  simp [List.getD_eq_getElem?_getD, List.getElem?_map, List.getElem?_eq_getElem h]

theorem getD_eq_default {α : Type _} {l : List α} {i : Nat} (h : l.length ≤ i) (d : α) :
    l.getD i d = d := by
  simp [List.getD_eq_getElem?_getD, List.getElem?_eq_none h]

theorem getD_zipWith {α : Type _} {f : α → α → α} {a b : List α} {i : Nat} {d : α}
    (ha : i < a.length) (hb : i < b.length) :
    (List.zipWith f a b).getD i d = f (a.getD i d) (b.getD i d) := by
  simp [List.getD_eq_getElem?_getD, List.getElem?_zipWith,
    List.getElem?_eq_getElem ha, List.getElem?_eq_getElem hb]

theorem getD_set_self {α : Type _} {l : List α} {i : Nat} {v d : α} (h : i < l.length) :
    (l.set i v).getD i d = v := by
  simp [List.getD_eq_getElem?_getD, List.getElem?_set_self h]

theorem getD_set_ne {α : Type _} {l : List α} {i j : Nat} {v d : α} (h : i ≠ j) :
    (l.set i v).getD j d = l.getD j d := by
  simp [List.getD_eq_getElem?_getD, List.getElem?_set_ne h]

theorem getD_append_left {α : Type _} {l₁ l₂ : List α} {i : Nat} {d : α} (h : i < l₁.length) :
    (l₁ ++ l₂).getD i d = l₁.getD i d := by
  simp [List.getD_eq_getElem?_getD, List.getElem?_append_left h]

theorem getD_append_right {α : Type _} {l₁ l₂ : List α} {i : Nat} {d : α} (h : l₁.length ≤ i) :
    (l₁ ++ l₂).getD i d = l₂.getD (i - l₁.length) d := by
  simp [List.getD_eq_getElem?_getD, List.getElem?_append_right h]

theorem getD_replicate {α : Type _} {n : Nat} {a d : α} {i : Nat} (h : i < n) :
    (List.replicate n a).getD i d = a := by
  simp [List.getD_eq_getElem?_getD, List.getElem?_replicate, h]

/-! ### Bit-vector valuation lemmas -/

theorem bvVal_lt (l : List Bool) : bvVal l < 2 ^ l.length := by
  induction l with
  | nil => simp [bvVal]
  | cons b bs ih =>
    simp only [bvVal, List.length_cons, pow_succ]
    cases b <;> simp <;> omega

theorem bvVal_testBit (l : List Bool) (i : Nat) :
    (bvVal l).testBit i = l.getD i false := by
  induction l generalizing i with
  | nil => simp [bvVal]
  | cons b bs ih =>
    cases i with
    | zero =>
      simp only [bvVal, Nat.testBit_zero, List.getD_cons_zero]
      cases b <;> simp [Nat.add_mul_mod_self_left]
    | succ i =>
      rw [Nat.testBit_add_one]
      have : ((if b then 1 else 0) + 2 * bvVal bs) / 2 = bvVal bs := by
        cases b <;> simp <;> omega
      simp only [bvVal, this, ih, List.getD_cons_succ]

theorem length_natToBv (w x : Nat) : (natToBv w x).length = w := by
  induction w generalizing x with
  | zero => rfl
  | succ w ih => simp [natToBv, ih]

theorem getD_natToBv (w x i : Nat) :
    (natToBv w x).getD i false = (decide (i < w) && x.testBit i) := by
  induction w generalizing x i with
  | zero => simp [natToBv]
  | succ w ih =>
    cases i with
    | zero => simp [natToBv]
    | succ i =>
      simp only [natToBv, List.getD_cons_succ, ih, Nat.testBit_add_one]
      by_cases h : i < w
      · simp [h, Nat.lt_succ_of_lt h]
      · simp [h, show ¬ i + 1 < w + 1 by omega]

theorem bvVal_natToBv (w x : Nat) : bvVal (natToBv w x) = x % 2 ^ w := by
  apply Nat.eq_of_testBit_eq
  intro i
  rw [bvVal_testBit, getD_natToBv, Nat.testBit_mod_two_pow]

/-! ### Valuation of the gadget operations -/

theorem testBit_rotr32 {x n : Nat} (hx : x < 2 ^ 32) (hn1 : 0 < n) (hn2 : n < 32) (j : Nat) :
    (rotr32 x n).testBit j = (decide (j < 32) && x.testBit ((j + n) % 32)) := by
  have hdiv : x / 2 ^ n < 2 ^ (32 - n) := by
    apply Nat.div_lt_of_lt_mul
    have hpow : 2 ^ n * 2 ^ (32 - n) = 2 ^ 32 := by rw [← pow_add]; congr 1; omega
    omega
  rw [rotr32, Nat.testBit_mul_pow_two_add _ hdiv]
  by_cases h1 : j < 32 - n
  · have hsr : x / 2 ^ n = x >>> n := (Nat.shiftRight_eq_div_pow x n).symm
    have hmod : (j + n) % 32 = n + j := by omega
    simp [h1, hsr, Nat.testBit_shiftRight, hmod, show j < 32 by omega]
  · by_cases h2 : j < 32
    · have hmod : (j + n) % 32 = j - (32 - n) := by omega
      simp [h1, h2, Nat.testBit_mod_two_pow, hmod, show j - (32 - n) < n by omega]
    · simp [h1, h2, Nat.testBit_mod_two_pow, show ¬ j - (32 - n) < n by omega]

theorem length_bvXor (a b : List Bool) : (bvXor a b).length = min a.length b.length := by
  simp [bvXor]

theorem length_bvAnd (a b : List Bool) : (bvAnd a b).length = min a.length b.length := by
  simp [bvAnd]

theorem length_bvNot (a : List Bool) : (bvNot a).length = a.length := by simp [bvNot]

theorem length_bvRotr (k : Nat) (a : List Bool) : (bvRotr k a).length = a.length := by
  simp [bvRotr]

theorem length_bvShr (k : Nat) (a : List Bool) : (bvShr k a).length = a.length := by
  simp [bvShr]

theorem length_bvAdd (a b : List Bool) : (bvAdd a b).length = 32 := length_natToBv _ _

theorem length_bvAddMany (xs : List (List Bool)) : (bvAddMany xs).length = 32 :=
  length_natToBv _ _

theorem bvVal_bvXor {a b : List Bool} (h : a.length = b.length) :
    bvVal (bvXor a b) = bvVal a ^^^ bvVal b := by
  apply Nat.eq_of_testBit_eq
  intro i
  rw [Nat.testBit_xor, bvVal_testBit, bvVal_testBit, bvVal_testBit]
  by_cases hi : i < a.length
  · rw [bvXor, getD_zipWith hi (h ▸ hi)]
  · rw [getD_eq_default (l := bvXor a b) (by rw [length_bvXor]; omega),
      getD_eq_default (l := a) (by omega), getD_eq_default (l := b) (by omega)]
    rfl

theorem bvVal_bvAnd {a b : List Bool} (h : a.length = b.length) :
    bvVal (bvAnd a b) = bvVal a &&& bvVal b := by
  apply Nat.eq_of_testBit_eq
  intro i
  rw [Nat.testBit_and, bvVal_testBit, bvVal_testBit, bvVal_testBit]
  by_cases hi : i < a.length
  · rw [bvAnd, getD_zipWith hi (h ▸ hi)]
  · rw [getD_eq_default (l := bvAnd a b) (by rw [length_bvAnd]; omega),
      getD_eq_default (l := a) (by omega), getD_eq_default (l := b) (by omega)]
    rfl

theorem bvVal_bvNot (a : List Bool) : bvVal (bvNot a) = (2 ^ a.length - 1) ^^^ bvVal a := by
  apply Nat.eq_of_testBit_eq
  intro i
  rw [Nat.testBit_xor, Nat.testBit_two_pow_sub_one, bvVal_testBit, bvVal_testBit]
  by_cases hi : i < a.length
  · rw [bvNot, getD_map hi false false]
    simp [hi]
  · rw [getD_eq_default (l := bvNot a) (by rw [length_bvNot]; omega),
      getD_eq_default (l := a) (by omega)]
    simp [hi]

theorem bvVal_bvRotr {a : List Bool} (h : a.length = 32) {k : Nat} (h1 : 0 < k) (h2 : k < 32) :
    bvVal (bvRotr k a) = rotr32 (bvVal a) k := by
  apply Nat.eq_of_testBit_eq
  intro i
  rw [bvVal_testBit, testBit_rotr32 (h ▸ bvVal_lt a) h1 h2, bvRotr, h, getD_mapRange]
  by_cases hi : i < 32
  · simp [hi, bvVal_testBit]
  · simp [hi]

theorem bvVal_bvShr {a : List Bool} (h : a.length = 32) (k : Nat) :
    bvVal (bvShr k a) = bvVal a >>> k := by
  apply Nat.eq_of_testBit_eq
  intro i
  rw [bvVal_testBit, Nat.testBit_shiftRight, bvShr, h, getD_mapRange]
  by_cases hi : i < 32
  · rw [if_pos hi, ← bvVal_testBit]
    congr 1
    omega
  · rw [if_neg hi]
    refine (Nat.testBit_lt_two_pow ?_).symm
    calc bvVal a < 2 ^ 32 := h ▸ bvVal_lt a
    _ ≤ 2 ^ (k + i) := Nat.pow_le_pow_right (by omega) (by omega)

theorem bvVal_bvAdd (a b : List Bool) : bvVal (bvAdd a b) = (bvVal a + bvVal b) % 2 ^ 32 := by
  rw [bvAdd, bvVal_natToBv, Nat.mod_mod_of_dvd _ dvd_rfl]

theorem bvVal_bvAddMany (xs : List (List Bool)) :
    bvVal (bvAddMany xs) = (xs.map bvVal).sum % 2 ^ 32 := by
  rw [bvAddMany, bvVal_natToBv, Nat.mod_mod_of_dvd _ dvd_rfl]

theorem bvVal_append (xs ys : List Bool) :
    bvVal (xs ++ ys) = bvVal xs + 2 ^ xs.length * bvVal ys := by
  induction xs with
  | nil => simp [bvVal]
  | cons b bs ih =>
    show (if b then 1 else 0) + 2 * bvVal (bs ++ ys) =
      (if b then 1 else 0) + 2 * bvVal bs + 2 ^ (b :: bs).length * bvVal ys
    rw [ih, List.length_cons, pow_succ]
    ring

theorem length_bvFromBytesBE {b0 b1 b2 b3 : List Bool} (h0 : b0.length = 8)
    (h1 : b1.length = 8) (h2 : b2.length = 8) (h3 : b3.length = 8) :
    (bvFromBytesBE [b0, b1, b2, b3]).length = 32 := by
  simp [bvFromBytesBE, h0, h1, h2, h3]

theorem bvVal_bvFromBytesBE {b0 b1 b2 b3 : List Bool} (h1 : b1.length = 8)
    (h2 : b2.length = 8) (h3 : b3.length = 8) :
    bvVal (bvFromBytesBE [b0, b1, b2, b3]) =
      ((bvVal b0 * 256 + bvVal b1) * 256 + bvVal b2) * 256 + bvVal b3 := by
  simp only [bvFromBytesBE, List.reverse_cons, List.reverse_nil, List.nil_append,
    List.cons_append, List.flatten_cons, List.flatten_nil, List.append_nil,
    bvVal_append, List.length_append, h1, h2, h3]
  omega

/-! ### Chunking, schedule initialisation, and correspondence scaffolding -/

theorem mem_of_getD {α : Type _} {l : List α} {i : Nat} (h : i < l.length) (d : α) :
    l.getD i d ∈ l := by
  rw [List.getD_eq_getElem?_getD, List.getElem?_eq_getElem h]
  exact List.getElem_mem h

theorem chunksGo_eq {α : Type _} :
    ∀ (k : Nat) (l : List α) (fuel : Nat), l.length = 4 * k → k ≤ fuel →
      chunksGo fuel l = (List.range k).map fun i => (l.drop (4 * i)).take 4 := by
  intro k
  induction k with
  | zero =>
    intro l fuel hl _
    have : l = [] := List.length_eq_zero.mp (by omega)
    subst this
    cases fuel <;> rfl
  | succ k ih =>
    intro l fuel hl hf
    obtain ⟨f, rfl⟩ : ∃ f, fuel = f + 1 := ⟨fuel - 1, by omega⟩
    obtain ⟨a, l', rfl⟩ : ∃ a l', l = a :: l' := by
      cases l with
      | nil => simp at hl
      | cons a l' => exact ⟨a, l', rfl⟩
    have hstep : chunksGo (f + 1) (a :: l') =
        (a :: l').take 4 :: chunksGo f ((a :: l').drop 4) := rfl
    have htail : (fun i => List.take 4 (List.drop (4 * i) ((a :: l').drop 4))) =
        ((fun i => List.take 4 (List.drop (4 * i) (a :: l'))) ∘ Nat.succ) := by
      funext i
      show List.take 4 (List.drop (4 * i) (List.drop 4 (a :: l'))) =
        List.take 4 (List.drop (4 * Nat.succ i) (a :: l'))
      rw [List.drop_drop]
      have h44 : 4 + 4 * i = 4 * Nat.succ i := by omega
      rw [h44]
    rw [hstep, ih ((a :: l').drop 4) f (by simp at hl ⊢; omega) (by omega),
      List.range_succ_eq_map, List.map_cons, List.map_map, htail]
    simp

theorem chunks4_eq {α : Type _} {l : List α} {k : Nat} (h : l.length = 4 * k) :
    chunks4 l = (List.range k).map fun i => (l.drop (4 * i)).take 4 := by
  rw [chunks4, chunksGo_eq k l l.length h (by omega)]

theorem take4_drop {α : Type _} {l : List α} {j : Nat} (h : j + 4 ≤ l.length) (d : α) :
    (l.drop j).take 4 = [l.getD j d, l.getD (j + 1) d, l.getD (j + 2) d, l.getD (j + 3) d] := by
  apply List.ext_getElem?
  intro n
  rcases n with _ | _ | _ | _ | n
  · simp [List.getElem?_take_of_lt, List.getElem?_drop, List.getD_eq_getElem?_getD,
      List.getElem?_eq_getElem (show j < l.length by omega)]
  · simp [List.getElem?_take_of_lt, List.getElem?_drop, List.getD_eq_getElem?_getD,
      List.getElem?_eq_getElem (show j + 1 < l.length by omega)]
  · simp [List.getElem?_take_of_lt, List.getElem?_drop, List.getD_eq_getElem?_getD,
      List.getElem?_eq_getElem (show j + 2 < l.length by omega)]
  · simp [List.getElem?_take_of_lt, List.getElem?_drop, List.getD_eq_getElem?_getD,
      List.getElem?_eq_getElem (show j + 3 < l.length by omega)]
  · have hlen : ((l.drop j).take 4).length ≤ n + 4 := by
      simp only [List.length_take, List.length_drop]
      omega
    rw [List.getElem?_eq_none hlen, List.getElem?_eq_none (by simp)]

theorem mapM_map_eq_some {α β γ : Type _} {h : α → β} {f : β → Option γ} {g : α → γ} :
    ∀ l : List α, (∀ a ∈ l, f (h a) = some (g a)) → (l.map h).mapM f = some (l.map g) := by
  intro l hl
  induction l with
  | nil => rfl
  | cons a as ih =>
    rw [List.map_cons, List.mapM_cons, hl a (by simp), ih fun b hb => hl b (by simp [hb])]
    rfl

theorem firstWords_eq {data : List Nat} (hd : data.length = 64) :
    ((chunks4 data).take 64).mapM u32FromBEBytes =
      some ((List.range 16).map (beWord data)) := by
  rw [chunks4_eq (k := 16) (by omega), List.take_of_length_le (by simp)]
  apply mapM_map_eq_some
  intro i hi
  have hi16 : i < 16 := List.mem_range.mp hi
  rw [take4_drop (by omega) 0]
  rfl

theorem update_state_ref_eq {state data : List Nat} (hd : data.length = 64) :
    update_state_ref state data = Except.ok (compressRounds
      (schedExtend ((List.range 16).map (beWord data) ++ List.replicate 48 0) 48) state) := by
  rw [update_state_ref, firstWords_eq hd]
  simp

theorem getD_eq_getElem {α : Type _} {l : List α} {i : Nat} (h : i < l.length) (d : α) :
    l.getD i d = l[i] := by
  simp [List.getD_eq_getElem?_getD, List.getElem?_eq_getElem h]

theorem BvN.map_eq {lb : List (List Bool)} {ln : List Nat} (h : BvN lb ln) :
    lb.map bvVal = ln := by
  apply List.ext_getElem (by simp [h.1])
  intro i h1 h2
  have hbl : i < lb.length := by rw [h.1]; exact h2
  rw [List.getElem_map]
  calc bvVal lb[i] = bvVal (lb.getD i []) := by rw [getD_eq_getElem hbl]
  _ = ln.getD i 0 := (h.2 i h2).2
  _ = ln[i] := getD_eq_getElem h2 0

theorem length_schedExtend (w : List Nat) : ∀ n, (schedExtend w n).length = w.length := by
  intro n
  induction n with
  | zero => rfl
  | succ n ih => simp [schedExtend, ih]

theorem length_bschedExtend (w : List (List Bool)) :
    ∀ n, (bschedExtend w n).length = w.length := by
  intro n
  induction n with
  | zero => rfl
  | succ n ih => simp [bschedExtend, ih]

theorem wadd_chain3 (a b c d : Nat) :
    wadd (wadd (wadd a b) c) d = (a + b + c + d) % 2 ^ 32 := by
  simp [wadd, Nat.mod_add_mod]

theorem wadd_chain4 (a b c d e : Nat) :
    wadd (wadd (wadd (wadd a b) c) d) e = (a + b + c + d + e) % 2 ^ 32 := by
  simp [wadd, Nat.mod_add_mod]

theorem K_getD_lt (i : Nat) : K.getD i 0 < 2 ^ 32 := by
  by_cases h : i < 64
  · have hall : ∀ j, j < 64 → K.getD j 0 < 2 ^ 32 := by decide
    exact hall i h
  · rw [getD_eq_default (by simp [K]; omega)]
    positivity

theorem length_bschedS0 {x : List Bool} (h : x.length = 32) : (bschedS0 x).length = 32 := by
  simp [bschedS0, length_bvXor, length_bvRotr, length_bvShr, h]

theorem length_bschedS1 {x : List Bool} (h : x.length = 32) : (bschedS1 x).length = 32 := by
  simp [bschedS1, length_bvXor, length_bvRotr, length_bvShr, h]

theorem bvVal_bschedS0 {x : List Bool} (h : x.length = 32) :
    bvVal (bschedS0 x) = schedS0 (bvVal x) := by
  rw [bschedS0, schedS0,
    bvVal_bvXor (by simp [length_bvXor, length_bvRotr, length_bvShr, h]),
    bvVal_bvXor (by simp [length_bvRotr, h]),
    bvVal_bvRotr h (by norm_num) (by norm_num),
    bvVal_bvRotr h (by norm_num) (by norm_num), bvVal_bvShr h]

theorem bvVal_bschedS1 {x : List Bool} (h : x.length = 32) :
    bvVal (bschedS1 x) = schedS1 (bvVal x) := by
  rw [bschedS1, schedS1,
    bvVal_bvXor (by simp [length_bvXor, length_bvRotr, length_bvShr, h]),
    bvVal_bvXor (by simp [length_bvRotr, h]),
    bvVal_bvRotr h (by norm_num) (by norm_num),
    bvVal_bvRotr h (by norm_num) (by norm_num), bvVal_bvShr h]

theorem bschedExtend_BvN {wb : List (List Bool)} {wn : List Nat} (hlen : wn.length = 64)
    (h : BvN wb wn) : ∀ n, n ≤ 48 → BvN (bschedExtend wb n) (schedExtend wn n) := by
  intro n
  induction n with
  | zero => intro _; exact h
  | succ n ih =>
    intro hn
    have IH := ih (by omega)
    have hlb : (bschedExtend wb n).length = 64 := by rw [length_bschedExtend, h.1, hlen]
    have hln : (schedExtend wn n).length = 64 := by rw [length_schedExtend, hlen]
    have e16 : 16 + n - 16 = n := by omega
    have e15 : 16 + n - 15 = n + 1 := by omega
    have e7 : 16 + n - 7 = n + 9 := by omega
    have e2 : 16 + n - 2 = n + 14 := by omega
    have hA := IH.2 n (by omega)
    have hB := IH.2 (n + 1) (by omega)
    have hC := IH.2 (n + 9) (by omega)
    have hD := IH.2 (n + 14) (by omega)
    simp only [bschedExtend, schedExtend, e16, e15, e7, e2]
    refine ⟨by simp [IH.1], ?_⟩
    intro i hi
    have hi64 : i < 64 := by
      simpa [hln] using hi
    by_cases hie : i = 16 + n
    · subst hie
      rw [getD_set_self (by rw [hlb]; omega), getD_set_self (by rw [hln]; omega)]
      refine ⟨length_bvAddMany _, ?_⟩
      rw [wadd_chain3, bvVal_bvAddMany]
      simp only [List.map_cons, List.map_nil, List.sum_cons, List.sum_nil]
      rw [bvVal_bschedS0 hB.1, bvVal_bschedS1 hD.1, hA.2, hB.2, hC.2, hD.2]
      congr 1
      omega
    · rw [getD_set_ne (fun he => hie he.symm), getD_set_ne (fun he => hie he.symm)]
      exact IH.2 i (by rw [hln]; omega)

theorem length_roundStep (ki wi : Nat) (h : List Nat) : (roundStep ki wi h).length = 8 := rfl

theorem broundStep_BvN {hb : List (List Bool)} {hn : List Nat} (h : BvN hb hn)
    (hlen : hn.length = 8) {wi : List Bool} {win ki : Nat} (hwl : wi.length = 32)
    (hwv : bvVal wi = win) (hki : ki < 2 ^ 32) :
    BvN (broundStep ki wi hb) (roundStep ki win hn) := by
  have h0 := h.2 0 (by omega)
  have h1 := h.2 1 (by omega)
  have h2 := h.2 2 (by omega)
  have h3 := h.2 3 (by omega)
  have h4 := h.2 4 (by omega)
  have h5 := h.2 5 (by omega)
  have h6 := h.2 6 (by omega)
  have h7 := h.2 7 (by omega)
  have hch : bvVal (bvXor (bvAnd (hb.getD 4 []) (hb.getD 5 []))
      (bvAnd (bvNot (hb.getD 4 [])) (hb.getD 6 []))) =
      (hn.getD 4 0 &&& hn.getD 5 0) ^^^ (u32not (hn.getD 4 0) &&& hn.getD 6 0) := by
    rw [bvVal_bvXor (by simp only [length_bvAnd, length_bvNot, h4.1, h5.1, h6.1,
        Nat.min_self]),
      bvVal_bvAnd (by rw [h4.1, h5.1]), bvVal_bvAnd (by rw [length_bvNot, h4.1, h6.1]),
      bvVal_bvNot, h4.1, h4.2, h5.2, h6.2, u32not]
  have hma : bvVal (bvXor (bvXor (bvAnd (hb.getD 0 []) (hb.getD 1 []))
      (bvAnd (hb.getD 0 []) (hb.getD 2 []))) (bvAnd (hb.getD 1 []) (hb.getD 2 []))) =
      (hn.getD 0 0 &&& hn.getD 1 0) ^^^ (hn.getD 0 0 &&& hn.getD 2 0) ^^^
        (hn.getD 1 0 &&& hn.getD 2 0) := by
    rw [bvVal_bvXor (by simp only [length_bvXor, length_bvAnd, h0.1, h1.1, h2.1,
        Nat.min_self]),
      bvVal_bvXor (by simp only [length_bvAnd, h0.1, h1.1, h2.1, Nat.min_self]),
      bvVal_bvAnd (by rw [h0.1, h1.1]), bvVal_bvAnd (by rw [h0.1, h2.1]),
      bvVal_bvAnd (by rw [h1.1, h2.1]), h0.2, h1.2, h2.2]
  have hs0 : bvVal (bvXor (bvXor (bvRotr 2 (hb.getD 0 [])) (bvRotr 13 (hb.getD 0 [])))
      (bvRotr 22 (hb.getD 0 []))) =
      rotr32 (hn.getD 0 0) 2 ^^^ rotr32 (hn.getD 0 0) 13 ^^^ rotr32 (hn.getD 0 0) 22 := by
    rw [bvVal_bvXor (by simp only [length_bvXor, length_bvRotr, h0.1, Nat.min_self]),
      bvVal_bvXor (by simp only [length_bvRotr, h0.1]),
      bvVal_bvRotr h0.1 (by norm_num) (by norm_num),
      bvVal_bvRotr h0.1 (by norm_num) (by norm_num),
      bvVal_bvRotr h0.1 (by norm_num) (by norm_num), h0.2]
  have hs1 : bvVal (bvXor (bvXor (bvRotr 6 (hb.getD 4 [])) (bvRotr 11 (hb.getD 4 [])))
      (bvRotr 25 (hb.getD 4 []))) =
      rotr32 (hn.getD 4 0) 6 ^^^ rotr32 (hn.getD 4 0) 11 ^^^ rotr32 (hn.getD 4 0) 25 := by
    rw [bvVal_bvXor (by simp only [length_bvXor, length_bvRotr, h4.1, Nat.min_self]),
      bvVal_bvXor (by simp only [length_bvRotr, h4.1]),
      bvVal_bvRotr h4.1 (by norm_num) (by norm_num),
      bvVal_bvRotr h4.1 (by norm_num) (by norm_num),
      bvVal_bvRotr h4.1 (by norm_num) (by norm_num), h4.2]
  have ht0 : bvVal (bvAddMany [hb.getD 7 [],
      bvXor (bvXor (bvRotr 6 (hb.getD 4 [])) (bvRotr 11 (hb.getD 4 [])))
        (bvRotr 25 (hb.getD 4 [])),
      bvXor (bvAnd (hb.getD 4 []) (hb.getD 5 []))
        (bvAnd (bvNot (hb.getD 4 [])) (hb.getD 6 [])), natToBv 32 ki, wi]) =
      wadd (wadd (wadd (wadd (hn.getD 7 0)
        (rotr32 (hn.getD 4 0) 6 ^^^ rotr32 (hn.getD 4 0) 11 ^^^ rotr32 (hn.getD 4 0) 25))
        ((hn.getD 4 0 &&& hn.getD 5 0) ^^^ (u32not (hn.getD 4 0) &&& hn.getD 6 0))) ki) win := by
    rw [wadd_chain4, bvVal_bvAddMany]
    simp only [List.map_cons, List.map_nil, List.sum_cons, List.sum_nil]
    rw [hs1, hch, h7.2, bvVal_natToBv, Nat.mod_eq_of_lt hki, hwv]
    congr 1
    omega
  have ht1 : bvVal (bvAdd (bvXor (bvXor (bvRotr 2 (hb.getD 0 []))
      (bvRotr 13 (hb.getD 0 []))) (bvRotr 22 (hb.getD 0 [])))
      (bvXor (bvXor (bvAnd (hb.getD 0 []) (hb.getD 1 []))
        (bvAnd (hb.getD 0 []) (hb.getD 2 []))) (bvAnd (hb.getD 1 []) (hb.getD 2 [])))) =
      wadd (rotr32 (hn.getD 0 0) 2 ^^^ rotr32 (hn.getD 0 0) 13 ^^^ rotr32 (hn.getD 0 0) 22)
        ((hn.getD 0 0 &&& hn.getD 1 0) ^^^ (hn.getD 0 0 &&& hn.getD 2 0) ^^^
          (hn.getD 1 0 &&& hn.getD 2 0)) := by
    rw [bvVal_bvAdd, hs0, hma, wadd]
  simp only [broundStep, roundStep]
  refine ⟨by simp, ?_⟩
  intro i hi
  have hi8 : i < 8 := by simpa using hi
  clear hi
  interval_cases i
  · simp only [List.getD_cons_zero, List.getD_cons_succ]
    exact ⟨length_bvAdd _ _, by rw [bvVal_bvAdd, ht0, ht1]; rfl⟩
  · simp only [List.getD_cons_zero, List.getD_cons_succ]
    exact ⟨h0.1, h0.2⟩
  · simp only [List.getD_cons_zero, List.getD_cons_succ]
    exact ⟨h1.1, h1.2⟩
  · simp only [List.getD_cons_zero, List.getD_cons_succ]
    exact ⟨h2.1, h2.2⟩
  · simp only [List.getD_cons_zero, List.getD_cons_succ]
    exact ⟨length_bvAdd _ _, by rw [bvVal_bvAdd, ht0, h3.2]; rfl⟩
  · simp only [List.getD_cons_zero, List.getD_cons_succ]
    exact ⟨h4.1, h4.2⟩
  · simp only [List.getD_cons_zero, List.getD_cons_succ]
    exact ⟨h5.1, h5.2⟩
  · simp only [List.getD_cons_zero, List.getD_cons_succ]
    exact ⟨h6.1, h6.2⟩

theorem foldRounds_BvN {wb : List (List Bool)} {wn : List Nat} (hw : BvN wb wn)
    (hwlen : wn.length = 64) :
    ∀ m, m ≤ 64 → ∀ hb hn, BvN hb hn → hn.length = 8 →
      BvN ((List.range m).foldl (fun h i => broundStep (K.getD i 0) (wb.getD i []) h) hb)
        ((List.range m).foldl (fun h i => roundStep (K.getD i 0) (wn.getD i 0) h) hn) ∧
      ((List.range m).foldl (fun h i => roundStep (K.getD i 0) (wn.getD i 0) h) hn).length
        = 8 := by
  intro m
  induction m with
  | zero =>
    intro _ hb hn h hl
    exact ⟨h, hl⟩
  | succ m ih =>
    intro hm hb hn h hl
    obtain ⟨IH, IHlen⟩ := ih (by omega) hb hn h hl
    rw [List.range_succ, List.foldl_append, List.foldl_append]
    simp only [List.foldl_cons, List.foldl_nil]
    have hwm := hw.2 m (by omega)
    exact ⟨broundStep_BvN IH IHlen hwm.1 hwm.2 (K_getD_lt m), length_roundStep _ _ _⟩

/-- Core equivalence: the native engine on the decoded inputs returns
the decoded return value of the constrained engine. -/
theorem engine_equiv_core (s d : List (List Bool))
    (hs : s.length = 8) (hs32 : ∀ w ∈ s, w.length = 32)
    (hd : d.length = 64) (hd8 : ∀ b ∈ d, b.length = 8) :
    update_state_ref (s.map bvVal) (d.map bvVal) =
      Except.ok (((one_compression_round s d).2).map bvVal) := by
  have hdm : (d.map bvVal).length = 64 := by simp [hd]
  rw [update_state_ref_eq hdm]
  have hws : ((chunks4 d).take 64).map bvFromBytesBE =
      (List.range 16).map fun i =>
        bvFromBytesBE [d.getD (4 * i) [], d.getD (4 * i + 1) [], d.getD (4 * i + 2) [],
          d.getD (4 * i + 3) []] := by
    rw [chunks4_eq (k := 16) (by omega), List.take_of_length_le (by simp), List.map_map]
    apply List.map_congr_left
    intro i hi
    have hi16 : i < 16 := List.mem_range.mp hi
    show bvFromBytesBE ((d.drop (4 * i)).take 4) = _
    rw [take4_drop (by rw [hd]; omega) []]
  have h2 : (one_compression_round s d).2 =
      bcompressRounds (bschedExtend ((List.range 16).map (fun i =>
        bvFromBytesBE [d.getD (4 * i) [], d.getD (4 * i + 1) [], d.getD (4 * i + 2) [],
          d.getD (4 * i + 3) []]) ++ List.replicate 48 (natToBv 32 0)) 48) s := by
    simp only [one_compression_round]
    rw [hws]
    simp
  rw [h2]
  have hbyte : ∀ j, j < 64 → (d.getD j []).length = 8 := fun j hj =>
    hd8 _ (mem_of_getD (by omega) [])
  have hinit : BvN ((List.range 16).map (fun i =>
      bvFromBytesBE [d.getD (4 * i) [], d.getD (4 * i + 1) [], d.getD (4 * i + 2) [],
        d.getD (4 * i + 3) []]) ++ List.replicate 48 (natToBv 32 0))
      ((List.range 16).map (beWord (d.map bvVal)) ++ List.replicate 48 0) := by
    constructor
    · simp
    · intro i hi
      have hi64 : i < 64 := by simpa using hi
      by_cases h16 : i < 16
      · rw [getD_append_left (by simpa using h16), getD_append_left (by simpa using h16),
          getD_mapRange, getD_mapRange, if_pos h16, if_pos h16]
        have l0 : (d.getD (4 * i) []).length = 8 := hbyte _ (by omega)
        have l1 : (d.getD (4 * i + 1) []).length = 8 := hbyte _ (by omega)
        have l2 : (d.getD (4 * i + 2) []).length = 8 := hbyte _ (by omega)
        have l3 : (d.getD (4 * i + 3) []).length = 8 := hbyte _ (by omega)
        refine ⟨length_bvFromBytesBE l0 l1 l2 l3, ?_⟩
        rw [bvVal_bvFromBytesBE l1 l2 l3, beWord,
          getD_map (l := d) (by rw [hd]; omega) 0 [], getD_map (l := d) (by rw [hd]; omega) 0 [],
          getD_map (l := d) (by rw [hd]; omega) 0 [], getD_map (l := d) (by rw [hd]; omega) 0 []]
      · rw [getD_append_right (by simpa using h16), getD_append_right (by simpa using h16),
          getD_replicate (by simp; omega), getD_replicate (by simp; omega)]
        refine ⟨length_natToBv _ _, ?_⟩
        rw [bvVal_natToBv]
        norm_num
  have hsched := bschedExtend_BvN (by simp) hinit 48 le_rfl
  have hstate : BvN s (s.map bvVal) := by
    constructor
    · simp
    · intro i hi
      have hi8 : i < 8 := by simpa [hs] using hi
      refine ⟨hs32 _ (mem_of_getD (by omega) []), ?_⟩
      rw [getD_map (l := s) (by omega) 0 []]
  have hfinal := (foldRounds_BvN hsched (by simp [length_schedExtend]) 64 le_rfl
    s (s.map bvVal) hstate (by simp [hs])).1
  simp only [compressRounds, bcompressRounds]
  rw [BvN.map_eq hfinal]

/-! ### Padding and block splitting -/

theorem padZeros_eq (l : List Nat) :
    padZeros l = l ++ List.replicate ((64 - (l.length + 8) % 64) % 64) 0 := by
  induction l using padZeros.induct with
  | case1 l h =>
    rw [padZeros, if_pos h]
    have : (64 - (l.length + 8) % 64) % 64 = 0 := by omega
    simp [this]
  | case2 l h ih =>
    rw [padZeros, if_neg h, ih]
    have hz : (64 - ((l ++ [0]).length + 8) % 64) % 64 + 1 =
        (64 - (l.length + 8) % 64) % 64 := by
      simp only [List.length_append, List.length_cons, List.length_nil]
      omega
    rw [List.append_assoc, ← hz, List.replicate_succ]
    rfl

theorem length_u64_to_be_bytes (x : Nat) : (u64_to_be_bytes x).length = 8 := by
  simp [u64_to_be_bytes]

theorem add_sha256_padding_eq (input : List Nat) :
    add_sha256_padding input = input ++ [128] ++
      List.replicate ((64 - (input.length + 9) % 64) % 64) 0 ++
      u64_to_be_bytes (8 * input.length) := by
  rw [add_sha256_padding, padZeros_eq]
  have : ((input ++ [128]).length + 8) % 64 = (input.length + 9) % 64 := by
    simp only [List.length_append, List.length_cons, List.length_nil]
  rw [this]

theorem length_add_sha256_padding (input : List Nat) :
    (add_sha256_padding input).length = 64 * ((input.length + 9 + 63) / 64) := by
  rw [add_sha256_padding_eq]
  simp only [List.length_append, List.length_cons, List.length_nil, List.length_replicate,
    length_u64_to_be_bytes]
  omega

theorem drainBlocks_len : ∀ (n : Nat) (cur : List Nat) (acc : List (List Nat)),
    ((drainBlocks n cur acc).2).length = acc.length + n := by
  intro n
  induction n with
  | zero => intro cur acc; rfl
  | succ n ih =>
    intro cur acc
    rw [drainBlocks, ih]
    simp
    omega

theorem drainBlocks_spec : ∀ (n : Nat) (cur : List Nat) (acc : List (List Nat)),
    cur.length = 64 * n →
    (drainBlocks n cur acc).2 =
      acc ++ ((List.range n).map fun i => (cur.drop (64 * i)).take 64).reverse := by
  intro n
  induction n with
  | zero =>
    intro cur acc _
    simp [drainBlocks]
  | succ n ih =>
    intro cur acc hlen
    rw [drainBlocks, ih (cur.take (n * 64)) _ (by simp only [List.length_take]; omega)]
    rw [List.range_succ, List.map_append, List.reverse_append]
    simp only [List.map_cons, List.map_nil, List.reverse_cons, List.reverse_nil,
      List.nil_append, List.append_assoc, List.singleton_append]
    congr 1
    have hh : (List.drop (64 * n) cur).length ≤ 64 := by
      simp only [List.length_drop]
      omega
    rw [show n * 64 = 64 * n by ring, List.take_of_length_le hh]
    refine congrArg (fun t => List.drop (64 * n) cur :: List.reverse t) ?_
    apply List.map_congr_left
    intro i hi
    have hin : i < n := List.mem_range.mp hi
    rw [List.drop_take, List.take_take]
    congr 1
    omega

/-- Claim C6: for every byte input, `sha256_msg_block_sequence` produces
exactly `ceil((L + 9) / 64)` message blocks, hence at least one. -/
theorem C6_block_count (input : List Nat) :
    (sha256_msg_block_sequence input).length = (input.length + 9 + 63) / 64 ∧
      1 ≤ (sha256_msg_block_sequence input).length := by
  have h : (sha256_msg_block_sequence input).length = (input.length + 9 + 63) / 64 := by
    rw [sha256_msg_block_sequence, padded_input_to_blocks, List.length_reverse,
      drainBlocks_len, length_add_sha256_padding]
    simp only [List.length_nil]
    omega
  refine ⟨h, ?_⟩
  rw [h]
  omega

/-- Claim C7: splitting a padded stream whose length is a multiple of 64
yields exactly one 64-byte chunk per 64 bytes, and the `k`-th produced
block is bytes `64 * k .. 64 * k + 63` of the stream, in original order,
despite the implementation draining chunks from the end of its buffer. -/
theorem C7_split_order (input : List Nat) (k : Nat) (hmod : input.length % 64 = 0)
    (hk : k < input.length / 64) :
    (padded_input_to_blocks input).length = input.length / 64 ∧
      (padded_input_to_blocks input).getD k [] = (input.drop (64 * k)).take 64 := by
  have hn : input.length = 64 * (input.length / 64) := by omega
  constructor
  · rw [padded_input_to_blocks, List.length_reverse, drainBlocks_len]
    simp
  · rw [padded_input_to_blocks, drainBlocks_spec _ _ _ hn]
    simp only [List.nil_append, List.reverse_reverse]
    rw [getD_mapRange, if_pos hk]

/-- Witness for C7 at a concrete 128-byte stream and chunk index 1. -/
theorem C7_split_order_witness :
    (List.replicate 128 (0 : Nat)).length % 64 = 0 ∧
      1 < (List.replicate 128 (0 : Nat)).length / 64 ∧
      ((padded_input_to_blocks (List.replicate 128 0)).length =
          (List.replicate 128 (0 : Nat)).length / 64 ∧
        (padded_input_to_blocks (List.replicate 128 0)).getD 1 [] =
          ((List.replicate 128 (0 : Nat)).drop (64 * 1)).take 64) :=
  ⟨by decide, by decide, C7_split_order (List.replicate 128 0) 1 (by decide) (by decide)⟩

/-- Counterexample to C5 as stated: for a 55-byte input the padded length
is 64, a multiple of 64 that is not greater than 55 + 9 = 64, so the
padded length is not the smallest multiple of 64 strictly greater than
`L + 9`. -/
theorem C5_counterexample :
    (add_sha256_padding (List.replicate 55 0)).length = 64 ∧ ¬ 55 + 9 < 64 := by
  constructor
  · rw [length_add_sha256_padding]
    simp
  · omega

/-- Claim C5 (amended): padding appends `0x80`, then zeros until the
bit-length suffix aligns, then the 8-byte big-endian bit length; the
padded length is the smallest multiple of 64 that is at least `L + 9`
(not strictly greater than it), and the final 8 bytes are the big-endian
bit length `8 * L`. -/
theorem C5_padding_correct (input : List Nat) :
    add_sha256_padding input = input ++ [128] ++
        List.replicate ((64 - (input.length + 9) % 64) % 64) 0 ++
        u64_to_be_bytes (8 * input.length) ∧
      (add_sha256_padding input).length % 64 = 0 ∧
      input.length + 9 ≤ (add_sha256_padding input).length ∧
      (∀ m, m % 64 = 0 → input.length + 9 ≤ m → (add_sha256_padding input).length ≤ m) ∧
      (add_sha256_padding input).drop ((add_sha256_padding input).length - 8) =
        u64_to_be_bytes (8 * input.length) := by
  refine ⟨add_sha256_padding_eq input, ?_, ?_, ?_, ?_⟩
  · rw [length_add_sha256_padding]
    omega
  · rw [length_add_sha256_padding]
    omega
  · intro m h1 h2
    rw [length_add_sha256_padding]
    omega
  · rw [add_sha256_padding_eq]
    have hl : (input ++ [128] ++ List.replicate ((64 - (input.length + 9) % 64) % 64) 0 ++
        u64_to_be_bytes (8 * input.length)).length - 8 =
        (input ++ [128] ++ List.replicate ((64 - (input.length + 9) % 64) % 64) 0).length := by
      simp only [List.length_append, List.length_cons, List.length_nil, List.length_replicate,
        length_u64_to_be_bytes]
      omega
    rw [hl, List.drop_left]

/-- Witness for C5 at the input `"abc"` and the bound `m = 64`. -/
theorem C5_padding_correct_witness :
    add_sha256_padding [97, 98, 99] = [97, 98, 99] ++ [128] ++
        List.replicate ((64 - ([97, 98, 99].length + 9) % 64) % 64) 0 ++
        u64_to_be_bytes (8 * [97, 98, 99].length) ∧
      (64 % 64 = 0 ∧ [97, 98, 99].length + 9 ≤ 64 ∧
        (add_sha256_padding [97, 98, 99]).length ≤ 64) :=
  ⟨(C5_padding_correct [97, 98, 99]).1,
    by decide, by decide,
    (C5_padding_correct [97, 98, 99]).2.2.2.1 64 (by decide) (by decide)⟩

/-- Claim C9: for a state of length 8 and a data vector of length 64,
`update_state_ref` always returns `Ok`; its `"Invalid chunk length"`
branch is unreachable because the 16 four-byte chunks fill the first 16
schedule words. -/
theorem C9_no_error (state data : List Nat) (hs : state.length = 8) (hd : data.length = 64) :
    ∃ out, update_state_ref state data = Except.ok out :=
  ⟨_, update_state_ref_eq hd⟩

/-- Witness for C9 at the initialization state and the zero block. -/
theorem C9_no_error_witness :
    H.length = 8 ∧ (List.replicate 64 (0 : Nat)).length = 64 ∧
      ∃ out, update_state_ref H (List.replicate 64 0) = Except.ok out :=
  ⟨by decide, by decide, C9_no_error H (List.replicate 64 0) (by decide) (by decide)⟩

/-- Claim C1: for every 8-word state of 32-bit gadget words and every
64-byte block of byte gadgets, the native compression engine
`update_state_ref`, run on the decoded words and bytes, returns exactly
the word-decoded return value of the constrained compression engine
`one_compression_round` on the gadget inputs: the two mirrored
evaluations of the step contract produce identical outputs for
identical in-range inputs. -/
theorem C1_native_matches_constrained (s d : List (List Bool))
    (hs : s.length = 8) (hs32 : ∀ w ∈ s, w.length = 32)
    (hd : d.length = 64) (hd8 : ∀ b ∈ d, b.length = 8) :
    update_state_ref (s.map bvVal) (d.map bvVal) =
      Except.ok (((one_compression_round s d).2).map bvVal) :=
  engine_equiv_core s d hs hs32 hd hd8

/-- Witness for C1 at the all-zero state and block gadgets. -/
theorem C1_native_matches_constrained_witness :
    (List.replicate 8 (natToBv 32 0)).length = 8 ∧
      (∀ w ∈ List.replicate 8 (natToBv 32 0), w.length = 32) ∧
      (List.replicate 64 (natToBv 8 0)).length = 64 ∧
      (∀ b ∈ List.replicate 64 (natToBv 8 0), b.length = 8) ∧
      update_state_ref ((List.replicate 8 (natToBv 32 0)).map bvVal)
          ((List.replicate 64 (natToBv 8 0)).map bvVal) =
        Except.ok (((one_compression_round (List.replicate 8 (natToBv 32 0))
          (List.replicate 64 (natToBv 8 0))).2).map bvVal) :=
  ⟨by decide, by decide, by decide, by decide,
    C1_native_matches_constrained _ _ (by decide) (by decide) (by decide) (by decide)⟩

/-- Claim C2 evaluated at a failing input: on the initialization state
and the all-zero block, `update_state_ref` returns the final round
registers themselves, and that returned state differs from the
elementwise wrapping sum of the input state with those registers — the
standard's feed-forward step is missing from the returned value. -/
theorem C2_feed_forward_missing :
    update_state_ref H (List.replicate 64 0) =
      Except.ok [1884074583, 1548879332, 633627687, 3528444304, 1003979282, 634190263,
        2608537663, 3159809215] ∧
      [1884074583, 1548879332, 633627687, 3528444304, 1003979282, 634190263,
        2608537663, 3159809215] ≠
        List.zipWith wadd H [1884074583, 1548879332, 633627687, 3528444304, 1003979282,
          634190263, 2608537663, 3159809215] :=
  ⟨by rfl, by decide⟩

/-- Claim C3 evaluated at the failing input `"abc"`: one native step
from the standard initialization state over the single padded block of
`"abc"` returns a state whose big-endian serialization is not the
canonical digest; adding the input state back in (the missing
feed-forward) yields exactly the canonical digest. -/
theorem C3_known_answer_fails :
    step_native H ((sha256_msg_block_sequence [97, 98, 99]).getD 0 []) =
        Except.ok [1349398616, 3550093669, 80891244, 3093179625, 1593118500, 4212265488,
          2492278198, 2518632596] ∧
      state_to_be_bytes [1349398616, 3550093669, 80891244, 3093179625, 1593118500,
          4212265488, 2492278198, 2518632596] ≠ abc_digest_bytes ∧
      state_to_be_bytes (List.zipWith wadd H [1349398616, 3550093669, 80891244, 3093179625,
          1593118500, 4212265488, 2492278198, 2518632596]) = abc_digest_bytes := by
  refine ⟨?_, by decide, by decide⟩
  have hb : (sha256_msg_block_sequence [97, 98, 99]).getD 0 [] =
      [97, 98, 99, 128] ++ List.replicate 52 0 ++ [0, 0, 0, 0, 0, 0, 0, 24] := by
    rw [sha256_msg_block_sequence, add_sha256_padding_eq]
    rfl
  rw [hb]
  rfl

/-- Counterexample to C8 as stated: the native conversions silently
reduce out-of-range field elements instead of reporting an error:
`bigint_to_u32` (a total function into words, with no error channel)
maps the 33-bit value `2 ^ 32 + 5` to `5`, its value modulo `2 ^ 32`,
and the message-byte conversion maps `300` to `44`, its value modulo
`256`. -/
theorem C8_counterexample :
    bigint_to_u32 (2 ^ 32 + 5) = 5 ∧ (2 ^ 32 + 5 : Nat) ≠ 5 ∧
      field_to_msg_byte 300 = 44 ∧ (300 : Nat) ≠ 44 :=
  ⟨by rfl, by decide, by rfl, by decide⟩

/-- Claim C8 (amended): the native-path conversions are total and
silently reduce: for every field representative `x`, `bigint_to_u32 x`
is exactly `x % 2 ^ 32` and the message-byte conversion yields
`x % 256`; no conversion error is ever reported to the caller. -/
theorem C8_silent_reduction (x : Nat) :
    bigint_to_u32 x = x % 2 ^ 32 ∧ field_to_msg_byte x = x % 256 := by
  constructor
  · have h4 : bigint_to_u32 x = x / 1 % 256 + 256 * (x / 256 % 256 + 256 *
        (x / 65536 % 256 + 256 * (x / 16777216 % 256 + 256 * 0))) := rfl
    rw [h4]
    omega
  · have h1 : field_to_msg_byte x = x / 1 % 256 := rfl
    rw [h1]
    omega

/-- Round-trip: re-decomposing the value of a bit vector over its own
length gives back the same wires. -/
theorem natToBv_bvVal : ∀ l : List Bool, natToBv l.length (bvVal l) = l := by
  intro l
  induction l with
  | nil => rfl
  | cons b bs ih =>
    show natToBv (bs.length + 1) ((if b then 1 else 0) + 2 * bvVal bs) = b :: bs
    rw [natToBv]
    have hm : ((if b then 1 else 0) + 2 * bvVal bs) % 2 = if b then 1 else 0 := by
      cases b <;> simp [Nat.add_mul_mod_self_left]
    have hd : ((if b then 1 else 0) + 2 * bvVal bs) / 2 = bvVal bs := by
      cases b <;> omega
    rw [hm, hd, ih]
    cases b <;> rfl

theorem map_bvVal_zipWith_bvAdd : ∀ (a b : List (List Bool)),
    (List.zipWith bvAdd a b).map bvVal =
      List.zipWith wadd (a.map bvVal) (b.map bvVal) := by
  intro a
  induction a with
  | nil => intro b; rfl
  | cons x xs ih =>
    intro b
    cases b with
    | nil => rfl
    | cons y ys =>
      simp only [List.zipWith_cons_cons, List.map_cons, ih]
      rw [bvVal_bvAdd]
      rfl

/-- Claim C10: `one_compression_round` overwrites its state argument
with the elementwise wrapping sum of the input state and the final round
registers (the feed-forward), while its return value is the final round
registers without the feed-forward; the step contract's constrained
evaluation (`generate_step_constraints`) outputs the return value and
discards the mutated argument, so it outputs the pre-feed-forward
registers. -/
theorem C10_mutation_vs_return (s d : List (List Bool))
    (hs32 : ∀ w ∈ s, w.length = 32) (hd8 : ∀ b ∈ d, b.length = 8) :
    ((one_compression_round s d).1).map bvVal =
        List.zipWith wadd (s.map bvVal) (((one_compression_round s d).2).map bvVal) ∧
      generate_step_constraints (s.map bvVal) (d.map bvVal) =
        ((one_compression_round s d).2).map bvVal := by
  constructor
  · have h1 : (one_compression_round s d).1 =
        List.zipWith bvAdd s (one_compression_round s d).2 := by
      simp only [one_compression_round]
    rw [h1, map_bvVal_zipWith_bvAdd]
  · have hsid : (List.map bvVal s).map (natToBv 32) = s := by
      rw [List.map_map]
      have hcong : ∀ w ∈ s, (natToBv 32 ∘ bvVal) w = id w := fun w hw => by
        simp only [Function.comp_apply, id]
        rw [← hs32 w hw, natToBv_bvVal]
      rw [List.map_congr_left hcong, List.map_id]
    have hdid : (List.map bvVal d).map (natToBv 8) = d := by
      rw [List.map_map]
      have hcong : ∀ b ∈ d, (natToBv 8 ∘ bvVal) b = id b := fun b hb => by
        simp only [Function.comp_apply, id]
        rw [← hd8 b hb, natToBv_bvVal]
      rw [List.map_congr_left hcong, List.map_id]
    rw [generate_step_constraints, hsid, hdid]

/-- Witness for C10 at the all-zero state and block gadgets. -/
theorem C10_mutation_vs_return_witness :
    (∀ w ∈ List.replicate 8 (natToBv 32 0), w.length = 32) ∧
      (∀ b ∈ List.replicate 64 (natToBv 8 0), b.length = 8) ∧
      (((one_compression_round (List.replicate 8 (natToBv 32 0))
          (List.replicate 64 (natToBv 8 0))).1).map bvVal =
        List.zipWith wadd ((List.replicate 8 (natToBv 32 0)).map bvVal)
          (((one_compression_round (List.replicate 8 (natToBv 32 0))
            (List.replicate 64 (natToBv 8 0))).2).map bvVal) ∧
      generate_step_constraints ((List.replicate 8 (natToBv 32 0)).map bvVal)
          ((List.replicate 64 (natToBv 8 0)).map bvVal) =
        ((one_compression_round (List.replicate 8 (natToBv 32 0))
          (List.replicate 64 (natToBv 8 0))).2).map bvVal) :=
  ⟨by decide, by decide,
    C10_mutation_vs_return (List.replicate 8 (natToBv 32 0))
      (List.replicate 64 (natToBv 8 0)) (by decide) (by decide)⟩

theorem rotr32_eq_rotrSpec {x n : Nat} (hx : x < 2 ^ 32) (hn : n ≤ 32) :
    rotr32 x n = rotrSpec x n := by
  have hpow : 2 ^ n * 2 ^ (32 - n) = 2 ^ 32 := by
    rw [← pow_add]
    congr 1
    omega
  have hsplit : x * 2 ^ (32 - n) = x / 2 ^ n * 2 ^ 32 + x % 2 ^ n * 2 ^ (32 - n) := by
    conv_lhs => rw [← Nat.div_add_mod x (2 ^ n)]
    rw [Nat.add_mul, ← hpow]
    ring
  rw [rotrSpec, hsplit]
  have hre : x / 2 ^ n + (x / 2 ^ n * 2 ^ 32 + x % 2 ^ n * 2 ^ (32 - n)) =
      x / 2 ^ n + x % 2 ^ n * 2 ^ (32 - n) + 2 ^ 32 * (x / 2 ^ n) := by
    ring
  rw [hre, Nat.add_mul_mod_self_left]
  have hlt : x / 2 ^ n + x % 2 ^ n * 2 ^ (32 - n) < 2 ^ 32 := by
    have hm : x % 2 ^ n < 2 ^ n := Nat.mod_lt _ (by positivity)
    have h1 : x % 2 ^ n * 2 ^ (32 - n) ≤ (2 ^ n - 1) * 2 ^ (32 - n) :=
      Nat.mul_le_mul_right _ (by omega)
    have h2 : (2 ^ n - 1) * 2 ^ (32 - n) = 2 ^ 32 - 2 ^ (32 - n) := by
      rw [Nat.sub_mul, one_mul, hpow]
    have hq : x / 2 ^ n < 2 ^ (32 - n) := by
      apply Nat.div_lt_of_lt_mul
      calc x < 2 ^ 32 := hx
      _ = 2 ^ n * 2 ^ (32 - n) := hpow.symm
    have hpos : 0 < 2 ^ (32 - n) := by positivity
    have hgN : 2 ^ (32 - n) ≤ 2 ^ 32 := Nat.pow_le_pow_right (by omega) (by omega)
    calc x / 2 ^ n + x % 2 ^ n * 2 ^ (32 - n)
        ≤ (2 ^ (32 - n) - 1) + (2 ^ 32 - 2 ^ (32 - n)) :=
          Nat.add_le_add (by omega) (h2 ▸ h1)
      _ < 2 ^ 32 := by omega
  rw [Nat.mod_eq_of_lt hlt, rotr32]
  ring

theorem Wspec_lt {data : List Nat} (hbytes : ∀ j, data.getD j 0 < 256) (i : Nat) :
    Wspec data i < 2 ^ 32 := by
  unfold Wspec
  by_cases h16 : i < 16
  · simp only [dif_pos h16]
    have b0 := hbytes (4 * i)
    have b1 := hbytes (4 * i + 1)
    have b2 := hbytes (4 * i + 2)
    have b3 := hbytes (4 * i + 3)
    unfold beWord
    omega
  · simp only [dif_neg h16]
    exact Nat.mod_lt _ (by positivity)

theorem roundSpec_getD_lt {ki wi : Nat} {h : List Nat} (hh : ∀ j, h.getD j 0 < 2 ^ 32) :
    ∀ j, (roundSpec ki wi h).getD j 0 < 2 ^ 32 := by
  intro j
  simp only [roundSpec]
  rcases j with _ | _ | _ | _ | _ | _ | _ | _ | j
  · exact Nat.mod_lt _ (by positivity)
  · exact hh 0
  · exact hh 1
  · exact hh 2
  · exact Nat.mod_lt _ (by positivity)
  · exact hh 4
  · exact hh 5
  · exact hh 6
  · rw [getD_eq_default (by simp)]
    positivity

theorem roundStep_eq_roundSpec {ki wi : Nat} {h : List Nat} (hh : ∀ j, h.getD j 0 < 2 ^ 32) :
    roundStep ki wi h = roundSpec ki wi h := by
  have r2 : rotr32 (h.getD 0 0) 2 = rotrSpec (h.getD 0 0) 2 :=
    rotr32_eq_rotrSpec (hh 0) (by norm_num)
  have r13 : rotr32 (h.getD 0 0) 13 = rotrSpec (h.getD 0 0) 13 :=
    rotr32_eq_rotrSpec (hh 0) (by norm_num)
  have r22 : rotr32 (h.getD 0 0) 22 = rotrSpec (h.getD 0 0) 22 :=
    rotr32_eq_rotrSpec (hh 0) (by norm_num)
  have r6 : rotr32 (h.getD 4 0) 6 = rotrSpec (h.getD 4 0) 6 :=
    rotr32_eq_rotrSpec (hh 4) (by norm_num)
  have r11 : rotr32 (h.getD 4 0) 11 = rotrSpec (h.getD 4 0) 11 :=
    rotr32_eq_rotrSpec (hh 4) (by norm_num)
  have r25 : rotr32 (h.getD 4 0) 25 = rotrSpec (h.getD 4 0) 25 :=
    rotr32_eq_rotrSpec (hh 4) (by norm_num)
  simp only [roundStep, roundSpec, r2, r13, r22, r6, r11, r25]
  simp only [wadd_chain4]
  simp only [wadd]

theorem schedExtend_getD {data : List Nat} (hd : data.length = 64)
    (hbytes : ∀ j, data.getD j 0 < 256) :
    ∀ n, n ≤ 48 → ∀ i, i < 64 →
      (schedExtend ((List.range 16).map (beWord data) ++ List.replicate 48 0) n).getD i 0 =
        if i < 16 + n then Wspec data i else 0 := by
  intro n
  induction n with
  | zero =>
    intro _ i hi
    simp only [schedExtend]
    by_cases h16 : i < 16
    · rw [getD_append_left (by simp; omega), getD_mapRange, if_pos h16, if_pos (by omega)]
      conv_rhs => rw [Wspec]
      rw [dif_pos h16]
    · rw [getD_append_right (by simp; omega), getD_replicate (by simp; omega),
        if_neg (by omega)]
  | succ n ih =>
    intro hn i hi
    simp only [schedExtend]
    have e16 : 16 + n - 16 = n := by omega
    have e15 : 16 + n - 15 = n + 1 := by omega
    have e7 : 16 + n - 7 = n + 9 := by omega
    have e2 : 16 + n - 2 = n + 14 := by omega
    by_cases hie : i = 16 + n
    · subst hie
      rw [getD_set_self (by
        rw [length_schedExtend]
        simp only [List.length_append, List.length_map, List.length_range,
          List.length_replicate]
        omega)]
      rw [e16, e15, e7, e2, ih (by omega) n (by omega), ih (by omega) (n + 1) (by omega),
        ih (by omega) (n + 9) (by omega), ih (by omega) (n + 14) (by omega),
        if_pos (by omega), if_pos (by omega), if_pos (by omega), if_pos (by omega),
        if_pos (by omega)]
      conv_rhs => rw [Wspec]
      rw [dif_neg (by omega), e16, e15, e7, e2, wadd_chain3]
      have hw1 : Wspec data (n + 1) < 2 ^ 32 := Wspec_lt hbytes _
      have hw14 : Wspec data (n + 14) < 2 ^ 32 := Wspec_lt hbytes _
      have r7 : rotr32 (Wspec data (n + 1)) 7 = rotrSpec (Wspec data (n + 1)) 7 :=
        rotr32_eq_rotrSpec hw1 (by norm_num)
      have r18 : rotr32 (Wspec data (n + 1)) 18 = rotrSpec (Wspec data (n + 1)) 18 :=
        rotr32_eq_rotrSpec hw1 (by norm_num)
      have r17 : rotr32 (Wspec data (n + 14)) 17 = rotrSpec (Wspec data (n + 14)) 17 :=
        rotr32_eq_rotrSpec hw14 (by norm_num)
      have r19 : rotr32 (Wspec data (n + 14)) 19 = rotrSpec (Wspec data (n + 14)) 19 :=
        rotr32_eq_rotrSpec hw14 (by norm_num)
      rw [schedS0, schedS1, r7, r18, r17, r19]
    · rw [getD_set_ne (fun he => hie he.symm), ih (by omega) i hi]
      by_cases h1 : i < 16 + n
      · rw [if_pos h1, if_pos (by omega)]
      · rw [if_neg h1, if_neg (by omega)]

theorem compressRounds_eq_spec {data wlist state : List Nat}
    (hwl : ∀ i, i < 64 → wlist.getD i 0 = Wspec data i)
    (hst : ∀ j, state.getD j 0 < 2 ^ 32) :
    compressRounds wlist state = compressSpec state data := by
  rw [compressRounds, compressSpec]
  suffices hsuf : ∀ m, m ≤ 64 → ∀ st, (∀ j, st.getD j 0 < 2 ^ 32) →
      (List.range m).foldl (fun h i => roundStep (K.getD i 0) (wlist.getD i 0) h) st =
        (List.range m).foldl (fun h i => roundSpec (K.getD i 0) (Wspec data i) h) st ∧
      (∀ j, ((List.range m).foldl (fun h i => roundSpec (K.getD i 0) (Wspec data i) h)
        st).getD j 0 < 2 ^ 32) by
    exact (hsuf 64 le_rfl state hst).1
  intro m
  induction m with
  | zero =>
    intro _ st hstx
    exact ⟨rfl, hstx⟩
  | succ m ih =>
    intro hm st hstx
    obtain ⟨he, hb⟩ := ih (by omega) st hstx
    rw [List.range_succ, List.foldl_append, List.foldl_append]
    simp only [List.foldl_cons, List.foldl_nil]
    rw [he, hwl m (by omega), roundStep_eq_roundSpec hb]
    exact ⟨rfl, roundSpec_getD_lt hb⟩

/-- Claim C4: for every 8-word state of 32-bit words and 64-byte block,
the native engine builds `W[0..15]` big-endian 4 bytes per word, extends
the schedule by the standard recurrence with wrapping additions, and
performs the standard 64-round register update with `ch`, `ma`, `s0`,
`s1`, `t0`, `t1` and the register rotation, all exactly as in the
specification's algorithm (stated against an independent spec-side
formalisation of that algorithm). -/
theorem C4_native_algorithm (state data : List Nat)
    (hs : state.length = 8) (hs32 : ∀ x ∈ state, x < 2 ^ 32)
    (hd : data.length = 64) (hd256 : ∀ b ∈ data, b < 256) :
    update_state_ref state data = Except.ok (compressSpec state data) := by
  have hbytes : ∀ j, data.getD j 0 < 256 := by
    intro j
    by_cases hj : j < data.length
    · exact hd256 _ (mem_of_getD hj 0)
    · rw [getD_eq_default (by omega)]
      norm_num
  have hst : ∀ j, state.getD j 0 < 2 ^ 32 := by
    intro j
    by_cases hj : j < state.length
    · exact hs32 _ (mem_of_getD hj 0)
    · rw [getD_eq_default (by omega)]
      positivity
  rw [update_state_ref_eq hd]
  refine congrArg Except.ok ?_
  exact compressRounds_eq_spec (fun i hi => by
    rw [schedExtend_getD hd hbytes 48 le_rfl i hi, if_pos (by omega)]) hst

/-- Witness for C4 at the initialization state and the all-zero block. -/
theorem C4_native_algorithm_witness :
    H.length = 8 ∧ (∀ x ∈ H, x < 2 ^ 32) ∧
      (List.replicate 64 (0 : Nat)).length = 64 ∧
      (∀ b ∈ List.replicate 64 (0 : Nat), b < 256) ∧
      update_state_ref H (List.replicate 64 0) =
        Except.ok (compressSpec H (List.replicate 64 0)) :=
  ⟨by decide, by decide, by decide, by decide,
    C4_native_algorithm H (List.replicate 64 0) (by decide) (by decide) (by decide)
      (by decide)⟩
